import Mathlib

/-!
Shallow embedding of the `am::num` numeric facilities (angle.h, rounded.h,
equality.h).  Scalars of the C++ code (`double`/`real_t`, or integral types
where noted) are modelled as exact rationals `ℚ`; the integral branch of the
`round_to_nearest` constructor is additionally modelled over `ℤ`.
The C99 rounding primitives used by the code (`nearbyint`, `remainder`,
`fmod`) are given their exact-arithmetic meanings: round to nearest with
ties to even, IEEE remainder, and truncated-division remainder.
-/

namespace am.num

/-- Truncation toward zero of a rational, as C's conversion to integer and
`fmod` use it. -/
def rtrunc (q : ℚ) : ℤ :=
  if 0 ≤ q then ⌊q⌋ else ⌈q⌉

/-- C99 `fmod x y = x - y * trunc (x / y)` in exact arithmetic; also the
meaning of C++ integral `%` when both arguments are integers. -/
def fmod (x y : ℚ) : ℚ :=
  x - y * rtrunc (x / y)

/-- Round to nearest integer, ties to even: the value `nearbyint` computes in
the default rounding mode, returned as an integer. -/
def rne (q : ℚ) : ℤ :=
  if q - ⌊q⌋ < 1/2 then ⌊q⌋
  else if 1/2 < q - ⌊q⌋ then ⌊q⌋ + 1
  else if ⌊q⌋ % 2 = 0 then ⌊q⌋ else ⌊q⌋ + 1

/-- `std::nearbyint` in the default (to-nearest, ties-to-even) mode; this is
`round_to_nearest_int::operator()` on a floating type (on an integral type
that operator is the identity). -/
def nearbyint (q : ℚ) : ℚ :=
  (rne q : ℚ)

/-- C99 `remainder x u = x - u * n` where `n` is the integer nearest to
`x / u`, ties to even (exact, IEEE semantics). -/
def remainder (x u : ℚ) : ℚ :=
  x - u * rne (x / u)

/-- `std::numeric_limits<double>::epsilon()`, exactly `2^-52`; the default
unit the `round_to_nearest` constructor substitutes for floating types. -/
def eps : ℚ :=
  1 / 2 ^ 52

/-- `round_to_nearest<T>::round_to_nearest(unit)` for floating `T`
(rounded.h lines 44-53): a non-positive unit is replaced by machine
epsilon.  Returns the stored `unit_`. -/
def round_to_nearest_mk (unit : ℚ) : ℚ :=
  if unit ≤ 0 then eps else unit

/-- `round_to_nearest<T>::round_to_nearest(unit)` for integral `T`
(rounded.h lines 44-53): a non-positive unit is replaced by `T(1)`.
Returns the stored `unit_`. -/
def round_to_nearest_mk_int (unit : ℤ) : ℤ :=
  if unit ≤ 0 then 1 else unit

/-- `round_to_nearest<T>::operator()(x) = x - remainder(x, unit_)`
(rounded.h lines 55-58). -/
def round_to_nearest (unit x : ℚ) : ℚ :=
  x - remainder x unit

/-- State of a `rounded<T, round_to_nearest<T>>` object: the policy's stored
`unit_` (kept via empty-base inheritance in the C++ class) and the stored
value `v_`. -/
structure rounded where
  unit : ℚ
  v : ℚ
  deriving DecidableEq, Repr

/-- `rounded::rounded(v, rm)` (rounded.h lines 127-136): stores the policy
and `corrected(v, rm)`. -/
def rounded.make (unit x : ℚ) : rounded :=
  ⟨unit, round_to_nearest unit x⟩

/-- `rounded::operator=(const value_type&)` (store `corrected(v)`). -/
def rounded.assign (r : rounded) (x : ℚ) : rounded :=
  ⟨r.unit, round_to_nearest r.unit x⟩

/-- `rounded::operator+=(const value_type&)`: `v_ = corrected(v_ + v)`. -/
def rounded.addAssign (r : rounded) (x : ℚ) : rounded :=
  ⟨r.unit, round_to_nearest r.unit (r.v + x)⟩

/-- `rounded::operator-=(const value_type&)`: `v_ = corrected(v_ - v)`. -/
def rounded.subAssign (r : rounded) (x : ℚ) : rounded :=
  ⟨r.unit, round_to_nearest r.unit (r.v - x)⟩

/-- `rounded::operator*=(const value_type&)`: `v_ = corrected(v_ * v)`. -/
def rounded.mulAssign (r : rounded) (x : ℚ) : rounded :=
  ⟨r.unit, round_to_nearest r.unit (r.v * x)⟩

/-- `rounded::operator/=(const value_type&)`: net effect
`v_ = corrected(v_ / v)`. -/
def rounded.divAssign (r : rounded) (x : ℚ) : rounded :=
  ⟨r.unit, round_to_nearest r.unit (r.v / x)⟩

/-- `rounded::operator%=(const rounded&)`: `v_ = corrected(v_ % o.value())`
(the `%` of the underlying scalar, i.e. truncated remainder). -/
def rounded.modAssign (r : rounded) (x : ℚ) : rounded :=
  ⟨r.unit, round_to_nearest r.unit (fmod r.v x)⟩

/-- Pre-increment `rounded::operator++`: `v_ = corrected(v_ + 1)`. -/
def rounded.inc (r : rounded) : rounded :=
  ⟨r.unit, round_to_nearest r.unit (r.v + 1)⟩

/-- Pre-decrement `rounded::operator--`: `v_ = corrected(v_ - 1)`. -/
def rounded.dec (r : rounded) : rounded :=
  ⟨r.unit, round_to_nearest r.unit (r.v - 1)⟩

/-- Unary `operator-(const rounded<T,R>&) = rounded<T,R>{-x.value()}`
(rounded.h lines 691-697): the result is built by the converting
constructor with its defaulted policy argument `rounding_method()`, i.e. a
default-constructed `round_to_nearest` whose unit argument is `T(0)`. -/
def rounded.neg (r : rounded) : rounded :=
  rounded.make (round_to_nearest_mk 0) (-r.v)

/-- `operator+(rounded, rounded) = x.value() + y.value()` (plain result). -/
def rounded.add (x y : rounded) : ℚ :=
  x.v + y.v

/-- `operator+(rounded, number) = x.value() + y`. -/
def rounded.addN (x : rounded) (y : ℚ) : ℚ :=
  x.v + y

/-- `operator+(number, rounded) = y + x.value()`. -/
def rounded.nAdd (y : ℚ) (x : rounded) : ℚ :=
  y + x.v

/-- `operator-(rounded, rounded) = x.value() - y.value()`. -/
def rounded.sub (x y : rounded) : ℚ :=
  x.v - y.v

/-- `operator-(rounded, number) = x.value() - y`. -/
def rounded.subN (x : rounded) (y : ℚ) : ℚ :=
  x.v - y

/-- `operator-(number, rounded) = y - x.value()`. -/
def rounded.nSub (y : ℚ) (x : rounded) : ℚ :=
  y - x.v

/-- `operator*(rounded, rounded) = x.value() * y.value()`. -/
def rounded.mul (x y : rounded) : ℚ :=
  x.v * y.v

/-- `operator*(rounded, number) = x.value() * y`. -/
def rounded.mulN (x : rounded) (y : ℚ) : ℚ :=
  x.v * y

/-- `operator*(number, rounded) = y * x.value()`. -/
def rounded.nMul (y : ℚ) (x : rounded) : ℚ :=
  y * x.v

/-- `operator/(rounded, rounded) = x.value() / y.value()`. -/
def rounded.div (x y : rounded) : ℚ :=
  x.v / y.v

/-- `operator/(rounded, number) = x.value() / y`. -/
def rounded.divN (x : rounded) (y : ℚ) : ℚ :=
  x.v / y

/-- `operator/(number, rounded) = y / x.value()`. -/
def rounded.nDiv (y : ℚ) (x : rounded) : ℚ :=
  y / x.v

/-- `operator%(rounded, rounded) = x.value() % y.value()`. -/
def rounded.mod (x y : rounded) : ℚ :=
  fmod x.v y.v

/-- `operator%(rounded, number) = x.value() % y`. -/
def rounded.modN (x : rounded) (y : ℚ) : ℚ :=
  fmod x.v y

/-- `operator%(number, rounded) = y % x.value()`. -/
def rounded.nMod (y : ℚ) (x : rounded) : ℚ :=
  fmod y x.v

/-- The invariant the spec states for `rounded`: the stored value is a fixed
point of its own rounding policy. -/
def rounded.invariant (r : rounded) : Prop :=
  r.v = round_to_nearest r.unit r.v

/-- State of an `angle<Turn>` object: `Turn::value` (the full turn in the
angle's unit, a positive compile-time constant) together with the stored
scalar `v_`. -/
structure angle where
  turn : ℚ
  v : ℚ
  deriving DecidableEq, Repr

/-- `angle::normalize()` (angle.h lines 189-201): if the value is negative
or greater than `turn()`, replace it by `fmod(v_, turn())`, then add
`turn()` if the result is negative. -/
def angle.normalize (a : angle) : angle :=
  if a.v < 0 ∨ a.turn < a.v then
    let w := fmod a.v a.turn
    ⟨a.turn, if w < 0 then w + a.turn else w⟩
  else a

/-- `angle::as<OutTurn>()` for `OutTurn == Turn` (angle.h lines 434-439):
returns `v_` unchanged. -/
def angle.as_same (a : angle) : ℚ :=
  a.v

/-- `angle::as<OutTurn>()` for `OutTurn != Turn` (angle.h lines 446-452):
`(T(OutTurn::value) / T(turn())) * T(v_)` in the common numeric type `T`
of both scalar types (here: exact rationals). -/
def angle.as_other (a : angle) (outTurn : ℚ) : ℚ :=
  (outTurn / a.turn) * a.v

/-- `approx_equal(a, b, tolerance)` with an explicit tolerance
(equality.h lines 44-50): `(a >= b - tolerance) && (a <= b + tolerance)`. -/
def approx_equal (a b tol : ℚ) : Bool :=
  decide (b - tol ≤ a) && decide (a ≤ b + tol)

/-- The three-iterator range overload of `approx_equal` (equality.h lines
150-167), with each range modelled as the list of values from its begin
iterator: walk the first range, comparing element-wise against the second;
`none` models the undefined behaviour of dereferencing the second range's
iterator past its end. -/
def approx_equal_range (xs ys : List ℚ) (tol : ℚ) : Option Bool :=
  match xs, ys with
  | [], _ => some true
  | _ :: _, [] => none
  | x :: xs1, y :: ys1 =>
      if tol < |x - y| then some false else approx_equal_range xs1 ys1 tol

/-- The four-iterator overload of `approx_equal` (equality.h lines 170-181):
takes an unused second end iterator (modelled as the suffix of the second
range it designates, but any model works: the parameter is unnamed in the
code) and forwards to the three-iterator overload. -/
def approx_equal_range2 (xs ys : List ℚ) (_end2 : List ℚ) (tol : ℚ) :
    Option Bool :=
  approx_equal_range xs ys tol

/-!  Helper lemmas about the rounding primitives.  -/

/-- Rounding an integer to the nearest integer returns it unchanged. -/
lemma rne_intCast (n : ℤ) : rne (n : ℚ) = n := by
  unfold rne
  rw [Int.floor_intCast]
  norm_num

/-- `rne q` differs from `q` by at most one half. -/
lemma abs_sub_rne_le (q : ℚ) : |q - rne q| ≤ 1/2 := by
  have h0 : (⌊q⌋ : ℚ) ≤ q := Int.floor_le q
  have h1 : q < ⌊q⌋ + 1 := Int.lt_floor_add_one q
  unfold rne
  split_ifs with hlt hgt hev
  · rw [abs_of_nonneg (by linarith)]
    linarith
  · push_cast
    rw [abs_of_nonpos (by linarith)]
    linarith
  · have : q - ⌊q⌋ = 1/2 := le_antisymm (not_lt.mp hgt) (not_lt.mp hlt)
    rw [abs_of_nonneg (by linarith)]
    linarith
  · have : q - ⌊q⌋ = 1/2 := le_antisymm (not_lt.mp hgt) (not_lt.mp hlt)
    push_cast
    rw [abs_of_nonpos (by linarith)]
    linarith

/-- `rne q` is a nearest integer to `q`: no integer is strictly closer. -/
lemma rne_nearest (q : ℚ) (m : ℤ) : |q - rne q| ≤ |q - m| := by
  have h0 : (⌊q⌋ : ℚ) ≤ q := Int.floor_le q
  have h1 : q < ⌊q⌋ + 1 := Int.lt_floor_add_one q
  rcases le_or_lt (m : ℚ) q with hm | hm
  · -- m ≤ q, hence m ≤ ⌊q⌋
    have hmf : m ≤ ⌊q⌋ := Int.le_floor.mpr hm
    have hmf' : (m : ℚ) ≤ ⌊q⌋ := by exact_mod_cast hmf
    rw [abs_of_nonneg (by linarith : (0:ℚ) ≤ q - m)]
    unfold rne
    split_ifs with hlt hgt hev
    · rw [abs_of_nonneg (by linarith)]
      linarith
    · push_cast
      rw [abs_of_nonpos (by linarith)]
      linarith
    · have : q - ⌊q⌋ = 1/2 := le_antisymm (not_lt.mp hgt) (not_lt.mp hlt)
      rw [abs_of_nonneg (by linarith)]
      linarith
    · have : q - ⌊q⌋ = 1/2 := le_antisymm (not_lt.mp hgt) (not_lt.mp hlt)
      push_cast
      rw [abs_of_nonpos (by linarith)]
      linarith
  · -- q < m, hence ⌊q⌋ + 1 ≤ m
    have hmf : ⌊q⌋ < m := Int.floor_lt.mpr hm
    have hmf' : (⌊q⌋ : ℚ) + 1 ≤ m := by exact_mod_cast hmf
    rw [abs_of_nonpos (by linarith : q - m ≤ 0)]
    unfold rne
    split_ifs with hlt hgt hev
    · rw [abs_of_nonneg (by linarith)]
      linarith
    · push_cast
      rw [abs_of_nonpos (by linarith)]
      linarith
    · have : q - ⌊q⌋ = 1/2 := le_antisymm (not_lt.mp hgt) (not_lt.mp hlt)
      rw [abs_of_nonneg (by linarith)]
      linarith
    · have : q - ⌊q⌋ = 1/2 := le_antisymm (not_lt.mp hgt) (not_lt.mp hlt)
      push_cast
      rw [abs_of_nonpos (by linarith)]
      linarith

/-- On a tie (fractional part exactly one half), `rne` picks the even
integer. -/
lemma rne_tie_even (q : ℚ) (h : q - ⌊q⌋ = 1/2) : rne q % 2 = 0 := by
  unfold rne
  rw [h]
  norm_num
  split_ifs with hev
  · exact hev
  · omega

/-- `round_to_nearest unit x = unit * rne (x / unit)`: the policy output is
the `rne`-chosen multiple of the unit. -/
lemma round_to_nearest_eq_mul (u x : ℚ) :
    round_to_nearest u x = u * rne (x / u) := by
  unfold round_to_nearest remainder
  ring

/-- For a nonzero unit, `round_to_nearest unit` is idempotent. -/
lemma round_to_nearest_idem (u x : ℚ) (hu : u ≠ 0) :
    round_to_nearest u (round_to_nearest u x) = round_to_nearest u x := by
  rw [round_to_nearest_eq_mul, round_to_nearest_eq_mul,
      mul_div_cancel_left₀ _ hu, rne_intCast]

/-- Bounds on `fmod` with a positive modulus. -/
lemma fmod_bounds (x t : ℚ) (ht : 0 < t) : -t < fmod x t ∧ fmod x t < t := by
  have ht' : t ≠ 0 := ne_of_gt ht
  unfold fmod rtrunc
  have hx : x = t * (x / t) := by field_simp
  set q := x / t with hq
  split_ifs with h
  · have h0 : (⌊q⌋ : ℚ) ≤ q := Int.floor_le q
    have h1 : q < ⌊q⌋ + 1 := Int.lt_floor_add_one q
    constructor
    · nlinarith
    · nlinarith
  · have h0 : q ≤ ⌈q⌉ := Int.le_ceil q
    have h1 : (⌈q⌉ : ℚ) < q + 1 := Int.ceil_lt_add_one q
    constructor
    · nlinarith
    · nlinarith

/-!  Claim theorems.  -/

/-- C1 (counterexample): the claim says `normalize()` always lands in the
half-open interval `[0, turn())`, for every starting value including those
`≥ turn()`.  But the guard in the code is `v_ < 0 || v_ > turn()`, so a
degrees angle whose stored value is exactly `360` is left unchanged at
`360`, which is not `< 360`. -/
theorem normalize_at_full_turn_counterexample :
    (angle.normalize ⟨360, 360⟩).v = 360 ∧
    ((angle.normalize ⟨360, 360⟩).v < 360) = False := by
  have h : (angle.normalize ⟨360, 360⟩).v = 360 := by
    norm_num [angle.normalize]
  constructor
  · exact h
  · rw [h]
    exact eq_false (lt_irrefl _)

/-- C1 (amended): for every angle with positive full turn and any starting
value other than exactly `turn()`, `normalize()` lands in `[0, turn())`
(the value `turn()` itself is left unchanged by the guard); in particular
for degrees, normalizing 370 yields 10 and normalizing -10 yields 350. -/
theorem normalize_maps_into_range (a : angle) (ht : 0 < a.turn)
    (hv : a.v ≠ a.turn) :
    (0 ≤ a.normalize.v ∧ a.normalize.v < a.turn) ∧
    (angle.normalize ⟨360, 370⟩).v = 10 ∧
    (angle.normalize ⟨360, -10⟩).v = 350 := by
  refine ⟨?_, by norm_num [angle.normalize, fmod, rtrunc],
          by norm_num [angle.normalize, fmod, rtrunc, Int.ceil_neg]⟩
  obtain ⟨t, v⟩ := a
  simp only at ht hv
  simp only [angle.normalize]
  by_cases h : v < 0 ∨ t < v
  · rw [if_pos h]
    have hb := fmod_bounds v t ht
    dsimp only
    split_ifs with hw
    · exact ⟨by linarith [hb.1], by linarith⟩
    · exact ⟨not_lt.mp hw, hb.2⟩
  · rw [if_neg h]
    push_neg at h
    exact ⟨h.1, lt_of_le_of_ne h.2 hv⟩

/-- C1 (witness): the amended theorem applied to the degrees angle 370. -/
theorem normalize_maps_into_range_witness :
    0 ≤ (angle.normalize ⟨360, 370⟩).v ∧
    (angle.normalize ⟨360, 370⟩).v < (360:ℚ) :=
  (normalize_maps_into_range ⟨360, 370⟩ (by norm_num) (by norm_num)).1

/-- C5: for every angle, the same-unit conversion `as<Turn>()` returns the
stored raw value unchanged: it is the identity, with no precision loss. -/
theorem as_same_is_identity :
    (∀ a : angle, a.as_same = a.v) ∧
    (angle.as_same ⟨360, 123⟩ = 123) :=
  ⟨fun _ => rfl, rfl⟩

/-- C6: for every angle and any other output unit, `as<OutTurn>()` computes
`(OutTurn::value / Turn::value) * v` as a single multiply-divide in the
common numeric type (exact rationals here); e.g. 180 degrees converts to
200 gons (full turn 400). -/
theorem as_other_conversion_formula (a : angle) (outTurn : ℚ) :
    a.as_other outTurn = (outTurn / a.turn) * a.v ∧
    angle.as_other ⟨360, 180⟩ 400 = 200 := by
  refine ⟨rfl, ?_⟩
  norm_num [angle.as_other]

/-- C2: the stored value of a `rounded` object is a fixed point of its own
rounding policy after construction from a raw value and after every
mutating operation (assignment from a raw value, compound assignments,
increment, decrement); the positivity assumption on the unit is exactly
what the `round_to_nearest` constructor guarantees.  The last conjunct
covers the `round_to_nearest_int` policy, which is likewise idempotent. -/
theorem rounded_stored_value_always_corrected :
    (∀ u x : ℚ, 0 < u → (rounded.make u x).invariant) ∧
    (∀ (r : rounded) (x : ℚ), 0 < r.unit →
      (r.assign x).invariant ∧ (r.addAssign x).invariant ∧
      (r.subAssign x).invariant ∧ (r.mulAssign x).invariant ∧
      (r.divAssign x).invariant ∧ (r.modAssign x).invariant ∧
      r.inc.invariant ∧ r.dec.invariant) ∧
    (∀ x : ℚ, nearbyint (nearbyint x) = nearbyint x) := by
  have key : ∀ u y : ℚ, u ≠ 0 →
      (rounded.mk u (round_to_nearest u y)).invariant := by
    intro u y hu
    unfold rounded.invariant
    exact (round_to_nearest_idem u y hu).symm
  refine ⟨fun u x hu => key u x (ne_of_gt hu), fun r x hr => ?_, fun x => ?_⟩
  · have hu := ne_of_gt hr
    exact ⟨key _ _ hu, key _ _ hu, key _ _ hu, key _ _ hu,
           key _ _ hu, key _ _ hu, key _ _ hu, key _ _ hu⟩
  · unfold nearbyint
    rw [rne_intCast]

/-- C2 (witness): the invariant at the concrete policy unit 2, for
construction from 7 and for `+= 1` on the stored state `⟨2, 8⟩`. -/
theorem rounded_stored_value_always_corrected_witness :
    (rounded.make 2 7).invariant ∧
    ((⟨2, 8⟩ : rounded).addAssign 1).invariant :=
  ⟨rounded_stored_value_always_corrected.1 2 7 (by norm_num),
   (rounded_stored_value_always_corrected.2.1 ⟨2, 8⟩ 1 (by norm_num)).2.1⟩

/-- C3: every binary arithmetic operator on `rounded` operands (both
rounded, or rounded paired with a plain number on either side) returns the
plain unwrapped numeric result on the raw stored values; the final
conjunct shows no policy is applied to that result: `⟨2,8⟩ + 1` yields 9,
while the policy applied to 9 would give 8. -/
theorem rounded_binary_ops_return_plain_value :
    (∀ x y : rounded,
      rounded.add x y = x.v + y.v ∧ rounded.sub x y = x.v - y.v ∧
      rounded.mul x y = x.v * y.v ∧ rounded.div x y = x.v / y.v ∧
      rounded.mod x y = fmod x.v y.v) ∧
    (∀ (x : rounded) (y : ℚ),
      rounded.addN x y = x.v + y ∧ rounded.nAdd y x = y + x.v ∧
      rounded.subN x y = x.v - y ∧ rounded.nSub y x = y - x.v ∧
      rounded.mulN x y = x.v * y ∧ rounded.nMul y x = y * x.v ∧
      rounded.divN x y = x.v / y ∧ rounded.nDiv y x = y / x.v ∧
      rounded.modN x y = fmod x.v y ∧ rounded.nMod y x = fmod y x.v) ∧
    (rounded.addN ⟨2, 8⟩ 1 = 9 ∧ round_to_nearest 2 9 = 8) := by
  refine ⟨fun x y => ⟨rfl, rfl, rfl, rfl, rfl⟩,
          fun x y => ⟨rfl, rfl, rfl, rfl, rfl, rfl, rfl, rfl, rfl, rfl⟩,
          ?_, ?_⟩
  · norm_num [rounded.addN]
  · norm_num [round_to_nearest, remainder, rne]

/-- C4: with a positive unit, `round_to_nearest` computes
`x - remainder(x, unit)`, which is the `unit`-multiple `unit * rne (x/unit)`
nearest to `x` (no integer multiple is strictly closer), with ties resolved
to an even multiplier; in particular with unit 2, input 7 yields 8 and
input 5 yields 4. -/
theorem round_to_nearest_snaps (u x : ℚ) (hu : 0 < u) :
    round_to_nearest u x = x - remainder x u ∧
    round_to_nearest u x = u * rne (x / u) ∧
    (∀ m : ℤ, |x - round_to_nearest u x| ≤ |x - u * m|) ∧
    (x / u - ⌊x / u⌋ = 1/2 → rne (x / u) % 2 = 0) ∧
    round_to_nearest 2 7 = 8 ∧ round_to_nearest 2 5 = 4 := by
  have hu' : u ≠ 0 := ne_of_gt hu
  refine ⟨rfl, round_to_nearest_eq_mul u x, ?_, rne_tie_even _, ?_, ?_⟩
  · intro m
    rw [round_to_nearest_eq_mul]
    have hx : x = u * (x / u) := by field_simp
    set q := x / u with hq
    have h1 : x - u * (rne q : ℚ) = u * (q - (rne q : ℚ)) := by
      rw [hx]; ring
    have h2 : x - u * (m : ℚ) = u * (q - (m : ℚ)) := by
      rw [hx]; ring
    rw [h1, h2, abs_mul, abs_mul, abs_of_pos hu]
    exact mul_le_mul_of_nonneg_left (rne_nearest q m) (le_of_lt hu)
  · norm_num [round_to_nearest, remainder, rne]
  · norm_num [round_to_nearest, remainder, rne]

/-- C4 (witness): at unit 2 and input 7, the snapped value 8 is at least as
close to 7 as the multiple `2 * 3 = 6` is. -/
theorem round_to_nearest_snaps_witness :
    |(7:ℚ) - round_to_nearest 2 7| ≤ |(7:ℚ) - 2 * ((3:ℤ) : ℚ)| :=
  (round_to_nearest_snaps 2 7 (by norm_num)).2.2.1 3

/-- C7: the `round_to_nearest` constructor stores a strictly positive unit
for every constructor argument: a non-positive argument is replaced by
machine epsilon for floating types and by 1 for integral types. -/
theorem round_to_nearest_unit_always_positive :
    (∀ u : ℚ, 0 < round_to_nearest_mk u ∧
      (u ≤ 0 → round_to_nearest_mk u = eps)) ∧
    (∀ u : ℤ, 0 < round_to_nearest_mk_int u ∧
      (u ≤ 0 → round_to_nearest_mk_int u = 1)) ∧
    0 < eps := by
  have he : (0:ℚ) < eps := by norm_num [eps]
  refine ⟨fun u => ?_, fun u => ?_, he⟩
  · unfold round_to_nearest_mk
    split_ifs with h
    · exact ⟨he, fun _ => rfl⟩
    · exact ⟨not_le.mp h, fun hc => absurd hc h⟩
  · unfold round_to_nearest_mk_int
    split_ifs with h
    · exact ⟨one_pos, fun _ => rfl⟩
    · exact ⟨not_le.mp h, fun hc => absurd hc h⟩

/-- C7 (witness): constructing the floating policy with unit -1 stores the
strictly positive default, machine epsilon. -/
theorem round_to_nearest_unit_always_positive_witness :
    0 < round_to_nearest_mk (-1) ∧ round_to_nearest_mk (-1) = eps :=
  ⟨(round_to_nearest_unit_always_positive.1 (-1)).1,
   (round_to_nearest_unit_always_positive.1 (-1)).2 (by norm_num)⟩

/-- Helper for C9: the three-iterator range comparison only ever looks at
the first `xs.length` elements of the second range. -/
lemma approx_equal_range_take (xs : List ℚ) :
    ∀ (ys zs : List ℚ) (tol : ℚ), ys.take xs.length = zs.take xs.length →
      approx_equal_range xs ys tol = approx_equal_range xs zs tol := by
  induction xs with
  | nil =>
      intro ys zs tol h
      rfl
  | cons x xs1 ih =>
      intro ys zs tol h
      cases ys with
      | nil =>
          cases zs with
          | nil => rfl
          | cons z zs1 => simp at h
      | cons y ys1 =>
          cases zs with
          | nil => simp at h
          | cons z zs1 =>
              simp only [List.length_cons, List.take_succ_cons,
                List.cons.injEq] at h
              obtain ⟨h1, h2⟩ := h
              subst h1
              simp only [approx_equal_range]
              rw [ih ys1 zs1 tol h2]

/-- C8: the explicit-tolerance `approx_equal(a, b, tol)` returns true
exactly when `b - tol <= a` and `a <= b + tol`; in particular
`approx_equal(1.1, 1.0, 0.01)` is false. -/
theorem approx_equal_iff_two_sided (a b tol : ℚ) :
    (approx_equal a b tol = true ↔ (b - tol ≤ a ∧ a ≤ b + tol)) ∧
    approx_equal (11/10) 1 (1/100) = false := by
  constructor
  · simp [approx_equal]
  · norm_num [approx_equal]

/-- C8 (witness): the characterization applied at `a = b = 1`, `tol = 0`. -/
theorem approx_equal_iff_two_sided_witness :
    approx_equal 1 1 0 = true ↔ ((1:ℚ) - 0 ≤ 1 ∧ (1:ℚ) ≤ 1 + 0) :=
  (approx_equal_iff_two_sided 1 1 0).1

/-- C9: the four-iterator overload of range `approx_equal` returns exactly
the three-iterator overload's result whatever second end iterator it is
handed (first conjunct), and the three-iterator comparison depends only on
the first `xs.length` elements of the second range (second conjunct): only
the first range's length determines how many elements are compared. -/
theorem approx_equal_range_overloads_agree :
    (∀ (xs ys e1 e2 : List ℚ) (tol : ℚ),
      approx_equal_range2 xs ys e1 tol = approx_equal_range xs ys tol ∧
      approx_equal_range2 xs ys e1 tol = approx_equal_range2 xs ys e2 tol) ∧
    (∀ (xs ys zs : List ℚ) (tol : ℚ),
      ys.take xs.length = zs.take xs.length →
      approx_equal_range xs ys tol = approx_equal_range xs zs tol) :=
  ⟨fun _ _ _ _ _ => ⟨rfl, rfl⟩,
   fun xs ys zs tol h => approx_equal_range_take xs ys zs tol h⟩

/-- C9 (witness): with first range `[1]`, the comparison result is the
same whether the second range continues with 2 or with 3 and whatever
second end iterator the four-iterator overload receives. -/
theorem approx_equal_range_overloads_agree_witness :
    approx_equal_range2 [1] [1, 2] [2] (1/2) =
      approx_equal_range [1] [1, 2] (1/2) ∧
    approx_equal_range [1] [1, 2] (1/2) =
      approx_equal_range [1] [1, 3] (1/2) :=
  ⟨(approx_equal_range_overloads_agree.1 [1] [1, 2] [2] [] (1/2)).1,
   approx_equal_range_overloads_agree.2 [1] [1, 2] [1, 3] (1/2) rfl⟩

/-- C10: unary negation rebuilds its result through the converting
constructor with a default-constructed policy (here: the
`round_to_nearest` default, meaning unit argument 0, stored as machine
epsilon), not a copy of the operand's policy; consequently, negating the
unit-2 value built from 7 (stored 8) and then adding 1 stores -7, while
adding 1 to a value that carries the original unit-2 policy with the same
scalar -8 stores -8 — the two results differ. -/
theorem rounded_neg_drops_policy :
    (∀ r : rounded,
      r.neg = rounded.make (round_to_nearest_mk 0) (-r.v) ∧
      r.neg.unit = eps) ∧
    (((rounded.make 2 7).neg.addAssign 1).v = -7 ∧
     ((⟨2, -(rounded.make 2 7).v⟩ : rounded).addAssign 1).v = -8 ∧
     (((-7:ℚ) = -8) = False)) := by
  constructor
  · intro r
    refine ⟨rfl, ?_⟩
    norm_num [rounded.neg, rounded.make, round_to_nearest_mk]
  · refine ⟨?_, ?_, eq_false (by norm_num)⟩
    · norm_num [rounded.make, rounded.neg, rounded.addAssign,
        round_to_nearest_mk, eps, round_to_nearest, remainder, rne]
    · norm_num [rounded.make, rounded.addAssign,
        round_to_nearest, remainder, rne]

/-- C10 (witness): the structural part applied to the concrete state
`⟨2, 5⟩`. -/
theorem rounded_neg_drops_policy_witness :
    (⟨2, 5⟩ : rounded).neg = rounded.make (round_to_nearest_mk 0) (-(5:ℚ)) ∧
    (⟨2, 5⟩ : rounded).neg.unit = eps :=
  rounded_neg_drops_policy.1 ⟨2, 5⟩

end am.num
